import Mathlib

/-!
Shallow embedding of the `Acid` class of `src/acid.py` (repository
`sillen`) and proofs of the claims of the specification about it.

Conventions of the embedding:
* Python floats become real numbers; `10**x` on floats becomes real
  exponentiation (`Real.rpow`), `pow(H, m)` with an integer exponent
  becomes `zpow`/`npow`.
* Python list indexing `Ka[j]` that can go out of range becomes a checked
  access in the `Except String` monad (Python raises `IndexError`); the
  loops of `Acid.alpha` become monadic folds over `List.range`.
* Loops `for j in range(1, m+1)` with body using `j-1` are re-indexed to
  `List.range m` with body using `j`.
-/

open Filter

/-- The record of fields a constructed `Acid` object holds. -/
structure Acid where
  pKa : List ℝ
  Ka : List ℝ
  C : ℝ
  name : String
  charge : ℤ

/-- Checked list access: Python `l[j]` for `j >= 0`, which raises
`IndexError` when `j` is past the end of the list. -/
def pyGet (l : List ℝ) (j : ℕ) : Except String ℝ :=
  match l.get? j with
  | some x => Except.ok x
  | none => Except.error "IndexError: list index out of range"

/-- One iteration of the product loops of `Acid.alpha`: `acc *= Ka[j]`
with the checked indexing of Python. -/
def mulKa (Ka : List ℝ) (acc : ℝ) (j : ℕ) : Except String ℝ := do
  let x ← pyGet Ka j
  pure (acc * x)

/-- The fields assigned by `Acid.__init__` before its name check:
`self.pKa = pKa`, `self.Ka = [10**(-pKa[i]) for i in range(len(pKa))]`,
`self.C = C`, `self.name = name`, `self.charge = charge`.  The
default arguments in the source are `name="A"` and `charge=0`. -/
noncomputable def mkAcid (pKa : List ℝ) (C : ℝ) (name : String) (charge : ℤ) : Acid :=
  ⟨pKa, pKa.map (fun p => (10 : ℝ) ^ (-p)), C, name, charge⟩

/-- `Acid.__init__`: derives the fields of `mkAcid` and raises an
exception iff the name contains the character `$` (the test
`"$" in name` on a one-character needle is occurrence of that character
in the name, modelled on the character list of the name).  This name check is
the only validation the constructor performs: in particular `C` (the
total concentration) is stored unchecked. -/
noncomputable def Acid.init (pKa : List ℝ) (C : ℝ) (name : String) (charge : ℤ) :
    Except String Acid :=
  if name.data.contains (Char.ofNat 36) then
    Except.error "Invalid character in acid name"
  else
    Except.ok (mkAcid pKa C name charge)

/-- `Acid.alpha(i, pH)` of `src/acid.py`, with the indexing errors of Python
modelled exactly, for an arbitrary integer protonation index `i`:
`H = 10**(-pH)`; `n = len(self.Ka)`;
`enum = pow(H, n-i)` then `enum *= self.Ka[j-1]` for `j in range(1, i+1)`
(an empty loop when `i <= 0`);
`denom = pow(H, n)` then, for the outer `k in range(1, n+1)`,
`p = pow(H, n-k)` is multiplied by `self.Ka[0], ..., self.Ka[k-1]` and
added to `denom` (the inner loop reuses the letter `k`, but
`range(1, k+1)` is evaluated at the outer value of `k`, and the outer
`for` draws its next value from its own iterator, so the shadowing is
benign and the inner loop multiplies exactly `Ka[0..k-1]`);
the method returns `enum / denom`. -/
noncomputable def Acid.alphaE (a : Acid) (i : ℤ) (pH : ℝ) : Except String ℝ := do
  let Hv : ℝ := (10 : ℝ) ^ (-pH)
  let n := a.Ka.length
  let enum ← (List.range i.toNat).foldlM (mulKa a.Ka) (Hv ^ ((n : ℤ) - i))
  let denom ← (List.range n).foldlM
    (fun acc k => do
      let p ← (List.range (k + 1)).foldlM (mulKa a.Ka) (Hv ^ (n - (k + 1)))
      pure (acc + p))
    (Hv ^ n)
  pure (enum / denom)

/-- `Acid.alpha(i, pH)` restricted to natural protonation indices, where
the list accesses `Ka[j-1]` of the loops are written with `List.getD`
(for `i ≤ n` every access of the source is in bounds, so no exception
can occur; `Acid.alphaE_ok` below proves this version agrees with the
checked one there). -/
noncomputable def Acid.alpha (a : Acid) (i : ℕ) (pH : ℝ) : ℝ :=
  let Hv : ℝ := (10 : ℝ) ^ (-pH)
  let n := a.Ka.length
  let enum := (List.range i).foldl (fun acc j => acc * a.Ka.getD j 0) (Hv ^ ((n : ℤ) - (i : ℤ)))
  let denom := (List.range n).foldl
    (fun acc k =>
      acc + (List.range (k + 1)).foldl (fun p j => p * a.Ka.getD j 0) (Hv ^ (n - (k + 1))))
    (Hv ^ n)
  enum / denom

/-- `Acid.c(i, pH) = self.C * self.alpha(i, pH)`. -/
noncomputable def Acid.c (a : Acid) (i : ℕ) (pH : ℝ) : ℝ := a.C * a.alpha i pH

/-- `Acid.logc(i, pH) = np.log10(self.c(i, pH))`. -/
noncomputable def Acid.logc (a : Acid) (i : ℕ) (pH : ℝ) : ℝ := Real.logb 10 (a.c i pH)

/-- State-passing form of the method call `self.alpha(i, pH)`: the body
reads `self.Ka` but assigns no field, so the returned object state is
the received one. -/
noncomputable def Acid.alphaSt (a : Acid) (i : ℕ) (pH : ℝ) : ℝ × Acid :=
  (a.alpha i pH, a)

/-- State-passing form of `self.c(i, pH)`: calls `self.alpha` threading
the object state, reads `self.C`, assigns no field. -/
noncomputable def Acid.cSt (a : Acid) (i : ℕ) (pH : ℝ) : ℝ × Acid :=
  let r := a.alphaSt i pH
  (r.2.C * r.1, r.2)

/-- State-passing form of `self.logc(i, pH)`: calls `self.c` threading
the object state, assigns no field. -/
noncomputable def Acid.logcSt (a : Acid) (i : ℕ) (pH : ℝ) : ℝ × Acid :=
  let r := a.cSt i pH
  (Real.logb 10 r.1, r.2)

/-- Numerator product of the spec formula, `Π_{j=1..k} Ka[j-1]`. -/
noncomputable def KaProd (Ka : List ℝ) (k : ℕ) : ℝ :=
  ∏ j ∈ Finset.range k, Ka.getD j 0

/-- Denominator of the spec formula, `Σ_{k=0..n} H^(n-k) * Π_{j=1..k} Ka[j-1]`. -/
noncomputable def alphaDenom (Ka : List ℝ) (Hv : ℝ) : ℝ :=
  ∑ k ∈ Finset.range (Ka.length + 1), Hv ^ (Ka.length - k) * KaProd Ka k

/-- C6: `concentration(i, pH)` is `total_concentration * fraction(i, pH)`
and `log_concentration(i, pH)` is `log10` of that concentration. -/
theorem C6_concentration_scaling (a : Acid) (i : ℕ) (pH : ℝ) :
    a.c i pH = a.C * a.alpha i pH ∧ a.logc i pH = Real.logb 10 (a.C * a.alpha i pH) :=
  ⟨rfl, rfl⟩

/-- C9: no query mutates the model: the state returned by the
state-passing forms of `alpha`, `c` and `logc` is the state received,
so every field still holds its construction-time value. -/
theorem C9_queries_pure (a : Acid) (i : ℕ) (pH : ℝ) :
    (a.alphaSt i pH).2 = a ∧ (a.cSt i pH).2 = a ∧ (a.logcSt i pH).2 = a :=
  ⟨rfl, rfl, rfl⟩

theorem pyGet_ok : ∀ (l : List ℝ) (j : ℕ), j < l.length → pyGet l j = Except.ok (l.getD j 0)
  | [], j, h => by simp at h
  | x :: l, 0, _ => rfl
  | x :: l, j + 1, h => by
    have ih := pyGet_ok l j (by simpa using h)
    simpa [pyGet] using ih

theorem foldl_mul_getD (Ka : List ℝ) (m : ℕ) (e : ℝ) :
    (List.range m).foldl (fun acc j => acc * Ka.getD j 0) e = e * KaProd Ka m := by
  induction m with
  | zero => simp [KaProd]
  | succ m ih =>
    rw [List.range_succ, List.foldl_append, ih]
    simp [KaProd, Finset.prod_range_succ, mul_assoc]

theorem ok_bind {α β : Type} (x : α) (f : α → Except String β) :
    (Except.ok x >>= f : Except String β) = f x := rfl

theorem pure_eq_ok {α : Type} (x : α) : (pure x : Except String α) = Except.ok x := rfl

theorem foldlM_mul_ok (Ka : List ℝ) : ∀ (m : ℕ), m ≤ Ka.length → ∀ (e : ℝ),
    (List.range m).foldlM (mulKa Ka) e = Except.ok (e * KaProd Ka m)
  | 0, _, e => by simp [KaProd, pure_eq_ok]
  | m + 1, hm, e => by
    rw [List.range_succ, List.foldlM_append,
      foldlM_mul_ok Ka m (Nat.le_of_succ_le hm) e, ok_bind]
    simp [mulKa, pyGet_ok Ka m (by omega), ok_bind, pure_eq_ok, KaProd,
      Finset.prod_range_succ, mul_assoc]

theorem foldl_denom (Ka : List ℝ) (Hv : ℝ) : ∀ (m : ℕ) (s : ℝ),
    (List.range m).foldl
      (fun acc k =>
        acc + (List.range (k + 1)).foldl (fun p j => p * Ka.getD j 0)
          (Hv ^ (Ka.length - (k + 1)))) s
      = s + ∑ k ∈ Finset.range m, Hv ^ (Ka.length - (k + 1)) * KaProd Ka (k + 1)
  | 0, s => by simp
  | m + 1, s => by
    rw [List.range_succ, List.foldl_append, foldl_denom Ka Hv m s]
    simp only [List.foldl_cons, List.foldl_nil]
    rw [foldl_mul_getD, Finset.sum_range_succ, add_assoc]

theorem foldlM_denom_ok (Ka : List ℝ) (Hv : ℝ) : ∀ (m : ℕ), m ≤ Ka.length → ∀ (s : ℝ),
    (List.range m).foldlM
      (fun acc k => do
        let p ← (List.range (k + 1)).foldlM (mulKa Ka) (Hv ^ (Ka.length - (k + 1)))
        pure (acc + p)) s
      = Except.ok (s + ∑ k ∈ Finset.range m, Hv ^ (Ka.length - (k + 1)) * KaProd Ka (k + 1))
  | 0, _, s => by simp [pure_eq_ok]
  | m + 1, hm, s => by
    rw [List.range_succ, List.foldlM_append,
      foldlM_denom_ok Ka Hv m (Nat.le_of_succ_le hm) s, ok_bind]
    simp only [List.foldlM_cons, List.foldlM_nil]
    rw [foldlM_mul_ok Ka (m + 1) hm, ok_bind]
    simp [pure_eq_ok, ok_bind, Finset.sum_range_succ, add_assoc]

theorem denom_eq (Ka : List ℝ) (Hv : ℝ) :
    Hv ^ Ka.length + ∑ k ∈ Finset.range Ka.length, Hv ^ (Ka.length - (k + 1)) * KaProd Ka (k + 1)
      = alphaDenom Ka Hv := by
  unfold alphaDenom
  rw [Finset.sum_range_succ']
  simp [KaProd, add_comm]

theorem alpha_closed (a : Acid) (i : ℕ) (pH : ℝ) (hi : i ≤ a.Ka.length) :
    a.alpha i pH
      = ((10 : ℝ) ^ (-pH)) ^ (a.Ka.length - i) * KaProd a.Ka i
        / alphaDenom a.Ka ((10 : ℝ) ^ (-pH)) := by
  have hz : ((10 : ℝ) ^ (-pH)) ^ ((a.Ka.length : ℤ) - (i : ℤ))
      = ((10 : ℝ) ^ (-pH)) ^ (a.Ka.length - i) := by
    rw [show ((a.Ka.length : ℤ) - (i : ℤ)) = ((a.Ka.length - i : ℕ) : ℤ) by omega, zpow_natCast]
  simp only [Acid.alpha]
  rw [foldl_mul_getD, foldl_denom, hz, denom_eq]

theorem alphaE_ok (a : Acid) (i : ℕ) (pH : ℝ) (hi : i ≤ a.Ka.length) :
    a.alphaE (i : ℤ) pH = Except.ok (a.alpha i pH) := by
  have hz : ((10 : ℝ) ^ (-pH)) ^ ((a.Ka.length : ℤ) - ((i : ℤ))) 
      = ((10 : ℝ) ^ (-pH)) ^ ((a.Ka.length : ℤ) - ((i : ℕ) : ℤ)) := rfl
  simp only [Acid.alphaE, Int.toNat_natCast]
  rw [foldlM_mul_ok a.Ka i hi, foldlM_denom_ok a.Ka _ a.Ka.length le_rfl]
  simp only [Acid.alpha]
  rw [foldl_mul_getD, foldl_denom]
  rfl

theorem mapKa_getD_pos (pKa : List ℝ) (j : ℕ) (hj : j < pKa.length) :
    0 < (pKa.map fun p => (10 : ℝ) ^ (-p)).getD j 0 := by
  have hj' : j < (pKa.map fun p => (10 : ℝ) ^ (-p)).length := by simpa using hj
  rw [List.getD_eq_getElem?_getD, List.getElem?_eq_getElem hj']
  simp only [Option.getD_some, List.getElem_map]
  exact Real.rpow_pos_of_pos (by norm_num) _

theorem KaProd_pos (pKa : List ℝ) (k : ℕ) (hk : k ≤ pKa.length) :
    0 < KaProd (pKa.map fun p => (10 : ℝ) ^ (-p)) k := by
  unfold KaProd
  refine Finset.prod_pos ?_
  intro j hj
  exact mapKa_getD_pos pKa j (lt_of_lt_of_le (Finset.mem_range.mp hj) hk)

theorem alphaDenom_pos (pKa : List ℝ) (Hv : ℝ) (hH : 0 < Hv) :
    0 < alphaDenom (pKa.map fun p => (10 : ℝ) ^ (-p)) Hv := by
  unfold alphaDenom
  refine Finset.sum_pos ?_ ⟨0, Finset.mem_range.mpr (Nat.succ_pos _)⟩
  intro k hk
  have hk' : k ≤ pKa.length := by
    have := Finset.mem_range.mp hk
    simpa [Nat.lt_succ_iff] using this
  exact mul_pos (pow_pos hH _) (KaProd_pos pKa k hk')

/-- C1: for a model constructed from pKa values (so that
`Ka[j] = 10^(-pKa[j])`), every index `0 ≤ i ≤ n` and every pH with
`H = 10^(-pH)`, `alpha(i, pH)` returns
`H^(n-i) * Π_{j=1..i} Ka[j-1]` divided by
`Σ_{k=0..n} H^(n-k) * Π_{j=1..k} Ka[j-1]`. -/
theorem C1_fraction_formula (pKa : List ℝ) (C : ℝ) (name : String) (charge : ℤ)
    (i : ℕ) (pH : ℝ) (hi : i ≤ pKa.length) :
    (mkAcid pKa C name charge).alphaE (i : ℤ) pH
      = Except.ok
          ((((10 : ℝ) ^ (-pH)) ^ (pKa.length - i)
              * KaProd (pKa.map fun p => (10 : ℝ) ^ (-p)) i)
            / alphaDenom (pKa.map fun p => (10 : ℝ) ^ (-p)) ((10 : ℝ) ^ (-pH))) := by
  have hK : (mkAcid pKa C name charge).Ka = pKa.map fun p => (10 : ℝ) ^ (-p) := rfl
  have hi' : i ≤ (mkAcid pKa C name charge).Ka.length := by
    rw [hK, List.length_map]; exact hi
  rw [alphaE_ok _ i pH hi', alpha_closed _ i pH hi', hK]
  simp [List.length_map]

theorem C1_fraction_formula_witness :
    (mkAcid [(0 : ℝ)] 1 "A" 0).alphaE ((1 : ℕ) : ℤ) 0
      = Except.ok
          ((((10 : ℝ) ^ (-(0 : ℝ))) ^ (([(0 : ℝ)]).length - 1)
              * KaProd (([(0 : ℝ)]).map fun p => (10 : ℝ) ^ (-p)) 1)
            / alphaDenom (([(0 : ℝ)]).map fun p => (10 : ℝ) ^ (-p)) ((10 : ℝ) ^ (-(0 : ℝ)))) :=
  C1_fraction_formula [(0 : ℝ)] 1 "A" 0 1 0 (by simp)

/-- C2: for a model built from any pKa list, the fractions of all n+1
protonation states sum to exactly 1 at every pH. -/
theorem C2_conservation (pKa : List ℝ) (C : ℝ) (name : String) (charge : ℤ) (pH : ℝ) :
    ∑ i ∈ Finset.range (pKa.length + 1), (mkAcid pKa C name charge).alpha i pH = 1 := by
  have hK : (mkAcid pKa C name charge).Ka = pKa.map fun p => (10 : ℝ) ^ (-p) := rfl
  have hlen : (mkAcid pKa C name charge).Ka.length = pKa.length := by
    rw [hK, List.length_map]
  have hH : (0 : ℝ) < (10 : ℝ) ^ (-pH) := Real.rpow_pos_of_pos (by norm_num) _
  have hD : 0 < alphaDenom ((mkAcid pKa C name charge).Ka) ((10 : ℝ) ^ (-pH)) := by
    rw [hK]; exact alphaDenom_pos pKa _ hH
  have hterm : ∀ i ∈ Finset.range (pKa.length + 1),
      (mkAcid pKa C name charge).alpha i pH
        = (((10 : ℝ) ^ (-pH)) ^ ((mkAcid pKa C name charge).Ka.length - i)
            * KaProd ((mkAcid pKa C name charge).Ka) i)
          / alphaDenom ((mkAcid pKa C name charge).Ka) ((10 : ℝ) ^ (-pH)) := by
    intro i hi
    exact alpha_closed _ i pH
      (by rw [hlen]; exact Nat.lt_succ_iff.mp (Finset.mem_range.mp hi))
  rw [Finset.sum_congr rfl hterm, ← Finset.sum_div]
  have hsum : ∑ i ∈ Finset.range (pKa.length + 1),
      (((10 : ℝ) ^ (-pH)) ^ ((mkAcid pKa C name charge).Ka.length - i)
        * KaProd ((mkAcid pKa C name charge).Ka) i)
      = alphaDenom ((mkAcid pKa C name charge).Ka) ((10 : ℝ) ^ (-pH)) := by
    rw [alphaDenom, hlen]
  rw [hsum, div_self (ne_of_gt hD)]

/-- C5: for a model built from pKa values and a valid index `i ≤ n`,
the fraction lies in the closed interval [0, 1] at every pH. -/
theorem C5_fraction_range (pKa : List ℝ) (C : ℝ) (name : String) (charge : ℤ)
    (i : ℕ) (pH : ℝ) (hi : i ≤ pKa.length) :
    0 ≤ (mkAcid pKa C name charge).alpha i pH
      ∧ (mkAcid pKa C name charge).alpha i pH ≤ 1 := by
  have hK : (mkAcid pKa C name charge).Ka = pKa.map fun p => (10 : ℝ) ^ (-p) := rfl
  have hlen : (mkAcid pKa C name charge).Ka.length = pKa.length := by
    rw [hK, List.length_map]
  have hi' : i ≤ (mkAcid pKa C name charge).Ka.length := by rw [hlen]; exact hi
  have hH : (0 : ℝ) < (10 : ℝ) ^ (-pH) := Real.rpow_pos_of_pos (by norm_num) _
  have hD : 0 < alphaDenom ((mkAcid pKa C name charge).Ka) ((10 : ℝ) ^ (-pH)) := by
    rw [hK]; exact alphaDenom_pos pKa _ hH
  have hnum : 0 < ((10 : ℝ) ^ (-pH)) ^ ((mkAcid pKa C name charge).Ka.length - i)
      * KaProd ((mkAcid pKa C name charge).Ka) i := by
    refine mul_pos (pow_pos hH _) ?_
    rw [hK]; exact KaProd_pos pKa i hi
  rw [alpha_closed _ i pH hi']
  constructor
  · exact le_of_lt (div_pos hnum hD)
  · rw [div_le_one hD]
    unfold alphaDenom
    refine Finset.single_le_sum (f := fun k =>
        ((10 : ℝ) ^ (-pH)) ^ ((mkAcid pKa C name charge).Ka.length - k)
          * KaProd ((mkAcid pKa C name charge).Ka) k) ?_ ?_
    · intro k hk
      have hk' : k ≤ pKa.length := by
        have := Finset.mem_range.mp hk
        rw [hlen] at this
        omega
      refine le_of_lt (mul_pos (pow_pos hH _) ?_)
      rw [hK]; exact KaProd_pos pKa k hk'
    · exact Finset.mem_range.mpr (by omega)

theorem C5_fraction_range_witness :
    0 ≤ (mkAcid [(0 : ℝ)] 1 "A" 0).alpha 1 0
      ∧ (mkAcid [(0 : ℝ)] 1 "A" 0).alpha 1 0 ≤ 1 :=
  C5_fraction_range [(0 : ℝ)] 1 "A" 0 1 0 (by simp)

/-- C8: a model constructed with an empty pKa list (n = 0) returns
`fraction(0, pH) = 1` exactly, for every pH. -/
theorem C8_degenerate_acid (C : ℝ) (name : String) (charge : ℤ) (pH : ℝ) :
    (mkAcid [] C name charge).alphaE 0 pH = Except.ok 1
      ∧ (mkAcid [] C name charge).alpha 0 pH = 1 := by
  constructor
  · simp [Acid.alphaE, mkAcid, pure_eq_ok, ok_bind]
  · simp [Acid.alpha, mkAcid]

theorem error_bind {α β : Type} (e : String) (f : α → Except String β) :
    (Except.error e >>= f : Except String β) = Except.error e := rfl

/-- C4 (settles the claim): `Acid.__init__` performs no check at all on
the total concentration: constructing with `total_concentration = -1`
(and the default name "A", which passes the name check) succeeds and
stores `C = -1`, where the claim requires an `InvalidParameterError`. -/
theorem C4_no_concentration_check :
    Acid.init [] (-1) "A" 0 = Except.ok (mkAcid [] (-1) "A" 0)
      ∧ (mkAcid [] (-1) "A" 0).C = -1 := by
  have h : "A".data.contains (Char.ofNat 36) = false := by decide
  exact ⟨by simp [Acid.init, h], rfl⟩

/-- C10: the constructor raises exactly when the supplied name contains
the character `$` (code 36), whatever the other arguments are; a name
without `$` is accepted and yields the constructed model. -/
theorem C10_name_dollar_check (pKa : List ℝ) (C : ℝ) (name : String) (charge : ℤ) :
    ((∃ e, Acid.init pKa C name charge = Except.error e)
        ↔ name.data.contains (Char.ofNat 36) = true)
      ∧ (name.data.contains (Char.ofNat 36) = false
          → Acid.init pKa C name charge = Except.ok (mkAcid pKa C name charge)) := by
  by_cases h : name.data.contains (Char.ofNat 36) = true
  · refine ⟨⟨fun _ => h, fun _ => ⟨_, by rw [Acid.init, if_pos h]⟩⟩, fun hf => ?_⟩
    rw [hf] at h
    cases h
  · refine ⟨⟨fun he => ?_, fun hc => absurd hc h⟩, fun _ => by rw [Acid.init, if_neg h]⟩
    obtain ⟨e, he⟩ := he
    rw [Acid.init, if_neg h] at he
    cases he

theorem C10_name_dollar_check_witness :
    (∃ e, Acid.init [] 1 "A$" 0 = Except.error e)
      ∧ Acid.init [] 1 "A" 0 = Except.ok (mkAcid [] 1 "A" 0) :=
  ⟨(C10_name_dollar_check [] 1 "A$" 0).1.mpr (by decide),
   (C10_name_dollar_check [] 1 "A" 0).2 (by decide)⟩

/-- C3 (settles the claim): out-of-range indices are not uniformly
rejected.  For the acid built from pKa = [0] (so n = 1) at pH = 0,
`alpha(-1, 0)` silently returns the number 1/2 — no error of any kind —
while `alpha(2, 0)` raises the Python IndexError from the access `Ka[1]`
inside the numerator loop. -/
theorem C3_out_of_range_not_signalled :
    (mkAcid [(0 : ℝ)] 1 "A" 0).alphaE (-1) 0 = Except.ok (1 / 2)
      ∧ (mkAcid [(0 : ℝ)] 1 "A" 0).alphaE 2 0
          = Except.error "IndexError: list index out of range" := by
  have hr1 : List.range 1 = [0] := rfl
  have hr2 : List.range 2 = [0, 1] := rfl
  have ht1 : (-1 : ℤ).toNat = 0 := rfl
  have ht2 : (2 : ℤ).toNat = 2 := rfl
  constructor
  · norm_num [Acid.alphaE, mkAcid, mulKa, pyGet, ok_bind, pure_eq_ok, error_bind,
      hr1, ht1, Real.rpow_zero]
  · norm_num [Acid.alphaE, mkAcid, mulKa, pyGet, ok_bind, pure_eq_ok, error_bind,
      hr2, hr1, ht2, Real.rpow_zero]

theorem KaProd_pos_of_entries (Ka : List ℝ) (hpos : ∀ j, j < Ka.length → 0 < Ka.getD j 0)
    (k : ℕ) (hk : k ≤ Ka.length) : 0 < KaProd Ka k := by
  unfold KaProd
  refine Finset.prod_pos ?_
  intro j hj
  exact hpos j (lt_of_lt_of_le (Finset.mem_range.mp hj) hk)

theorem tendsto_Hval_atBot : Tendsto (fun pH : ℝ => (10 : ℝ) ^ (-pH)) atBot atTop := by
  have hlin : Tendsto (fun pH : ℝ => Real.log 10 * (-pH)) atBot atTop :=
    Tendsto.const_mul_atTop (Real.log_pos (by norm_num)) tendsto_neg_atBot_atTop
  have hexp : Tendsto (fun pH : ℝ => Real.exp (Real.log 10 * (-pH))) atBot atTop :=
    Real.tendsto_exp_atTop.comp hlin
  exact hexp.congr fun pH =>
    (Real.rpow_def_of_pos (by norm_num : (0 : ℝ) < 10) (-pH)).symm

theorem tendsto_Hval_atTop : Tendsto (fun pH : ℝ => (10 : ℝ) ^ (-pH)) atTop (nhds 0) := by
  have hlin : Tendsto (fun pH : ℝ => Real.log 10 * (-pH)) atTop atBot :=
    Tendsto.const_mul_atBot (Real.log_pos (by norm_num)) tendsto_neg_atTop_atBot
  have hexp : Tendsto (fun pH : ℝ => Real.exp (Real.log 10 * (-pH))) atTop (nhds 0) :=
    Real.tendsto_exp_atBot.comp hlin
  exact hexp.congr fun pH =>
    (Real.rpow_def_of_pos (by norm_num : (0 : ℝ) < 10) (-pH)).symm

theorem tendsto_alphaForm_atTop (Ka : List ℝ) (i : ℕ) (hi : i ≤ Ka.length) :
    Tendsto (fun h : ℝ => (h ^ (Ka.length - i) * KaProd Ka i) / alphaDenom Ka h) atTop
      (nhds (if i = 0 then 1 else 0)) := by
  set n := Ka.length with hn
  have hnum : Tendsto (fun h : ℝ => KaProd Ka i * (h⁻¹) ^ i) atTop
      (nhds (KaProd Ka i * (0 : ℝ) ^ i)) :=
    (tendsto_inv_atTop_zero.pow i).const_mul _
  have hden : Tendsto (fun h : ℝ => ∑ k ∈ Finset.range (n + 1), KaProd Ka k * (h⁻¹) ^ k)
      atTop (nhds (∑ k ∈ Finset.range (n + 1), KaProd Ka k * (0 : ℝ) ^ k)) :=
    tendsto_finset_sum _ fun k _ => (tendsto_inv_atTop_zero.pow k).const_mul _
  have hS : ∑ k ∈ Finset.range (n + 1), KaProd Ka k * (0 : ℝ) ^ k = 1 := by
    rw [Finset.sum_eq_single_of_mem 0 (Finset.mem_range.mpr (Nat.succ_pos n))
      (fun k _ hk => by rw [zero_pow hk, mul_zero])]
    simp [KaProd]
  have hdiv : Tendsto (fun h : ℝ =>
      (KaProd Ka i * (h⁻¹) ^ i) / ∑ k ∈ Finset.range (n + 1), KaProd Ka k * (h⁻¹) ^ k)
      atTop (nhds ((KaProd Ka i * (0 : ℝ) ^ i) / 1)) := by
    refine Tendsto.div hnum ?_ one_ne_zero
    rw [hS] at hden
    exact hden
  have hval : (KaProd Ka i * (0 : ℝ) ^ i) / 1 = if i = 0 then 1 else 0 := by
    cases i with
    | zero => simp [KaProd]
    | succ m => simp [zero_pow]
  rw [hval] at hdiv
  refine Tendsto.congr' ?_ hdiv
  refine (Filter.eventually_gt_atTop (0 : ℝ)).mono ?_
  intro h hh
  have hne : h ≠ 0 := ne_of_gt hh
  have hpow : h ^ n ≠ 0 := pow_ne_zero _ hne
  have hterm : ∀ k, k ≤ n → h ^ n * (KaProd Ka k * (h⁻¹) ^ k) = h ^ (n - k) * KaProd Ka k := by
    intro k hk
    rw [inv_pow, pow_sub₀ h hne hk]
    ring
  have hd : alphaDenom Ka h
      = h ^ n * ∑ k ∈ Finset.range (n + 1), KaProd Ka k * (h⁻¹) ^ k := by
    rw [alphaDenom, Finset.mul_sum]
    refine Finset.sum_congr rfl ?_
    intro k hk
    exact (hterm k (Nat.lt_succ_iff.mp (Finset.mem_range.mp hk))).symm
  calc (KaProd Ka i * (h⁻¹) ^ i) / ∑ k ∈ Finset.range (n + 1), KaProd Ka k * (h⁻¹) ^ k
      = (h ^ n * (KaProd Ka i * (h⁻¹) ^ i))
          / (h ^ n * ∑ k ∈ Finset.range (n + 1), KaProd Ka k * (h⁻¹) ^ k) := by
        rw [mul_div_mul_left _ _ hpow]
    _ = (h ^ (n - i) * KaProd Ka i) / alphaDenom Ka h := by rw [hterm i hi, hd]

theorem tendsto_alphaForm_nhds_zero (Ka : List ℝ)
    (hpos : ∀ j, j < Ka.length → 0 < Ka.getD j 0) (i : ℕ) (hi : i ≤ Ka.length) :
    Tendsto (fun h : ℝ => (h ^ (Ka.length - i) * KaProd Ka i) / alphaDenom Ka h) (nhds 0)
      (nhds (if i = Ka.length then 1 else 0)) := by
  set n := Ka.length with hn
  have hPn : 0 < KaProd Ka n := KaProd_pos_of_entries Ka hpos n le_rfl
  have hnum : Tendsto (fun h : ℝ => h ^ (n - i) * KaProd Ka i) (nhds 0)
      (nhds ((0 : ℝ) ^ (n - i) * KaProd Ka i)) :=
    ((continuous_pow (n - i)).tendsto 0).mul_const _
  have hden : Tendsto (fun h : ℝ => alphaDenom Ka h) (nhds 0)
      (nhds (∑ k ∈ Finset.range (n + 1), (0 : ℝ) ^ (n - k) * KaProd Ka k)) := by
    have : ∀ h : ℝ, alphaDenom Ka h = ∑ k ∈ Finset.range (n + 1), h ^ (n - k) * KaProd Ka k :=
      fun h => rfl
    exact tendsto_finset_sum _ fun k _ => ((continuous_pow (n - k)).tendsto 0).mul_const _
  have hS : ∑ k ∈ Finset.range (n + 1), (0 : ℝ) ^ (n - k) * KaProd Ka k = KaProd Ka n := by
    rw [Finset.sum_eq_single_of_mem n (Finset.mem_range.mpr (Nat.lt_succ_self n))
      (fun k hk hkn => by
        have hk' : k < n := by
          have := Finset.mem_range.mp hk
          omega
        rw [zero_pow (by omega : n - k ≠ 0), zero_mul])]
    simp
  rw [hS] at hden
  have hdiv : Tendsto (fun h : ℝ => (h ^ (n - i) * KaProd Ka i) / alphaDenom Ka h) (nhds 0)
      (nhds (((0 : ℝ) ^ (n - i) * KaProd Ka i) / KaProd Ka n)) :=
    Tendsto.div hnum hden (ne_of_gt hPn)
  have hval : ((0 : ℝ) ^ (n - i) * KaProd Ka i) / KaProd Ka n = if i = n then 1 else 0 := by
    by_cases hin : i = n
    · subst hin
      simp [div_self (ne_of_gt hPn)]
    · have : n - i ≠ 0 := by omega
      rw [zero_pow this, zero_mul, zero_div, if_neg hin]
  rw [hval] at hdiv
  exact hdiv

/-- C7: for a model with n ≥ 1 dissociation steps built from pKa values,
as pH → -∞ the fraction of state i tends to 1 if i = 0 and to 0
otherwise, and as pH → +∞ it tends to 1 if i = n and to 0 otherwise. -/
theorem C7_limiting_behavior (pKa : List ℝ) (C : ℝ) (name : String) (charge : ℤ)
    (i : ℕ) (hn : 1 ≤ pKa.length) (hi : i ≤ pKa.length) :
    Tendsto (fun pH => (mkAcid pKa C name charge).alpha i pH) atBot
        (nhds (if i = 0 then 1 else 0))
      ∧ Tendsto (fun pH => (mkAcid pKa C name charge).alpha i pH) atTop
        (nhds (if i = pKa.length then 1 else 0)) := by
  set Ka := pKa.map fun p => (10 : ℝ) ^ (-p) with hKa
  have hlen : Ka.length = pKa.length := List.length_map _ _
  have hi' : i ≤ Ka.length := by rw [hlen]; exact hi
  have hpos : ∀ j, j < Ka.length → 0 < Ka.getD j 0 := by
    intro j hj
    exact mapKa_getD_pos pKa j (by rwa [hlen] at hj)
  have hfun : ∀ pH, (mkAcid pKa C name charge).alpha i pH
      = (((10 : ℝ) ^ (-pH)) ^ (Ka.length - i) * KaProd Ka i)
          / alphaDenom Ka ((10 : ℝ) ^ (-pH)) := by
    intro pH
    exact alpha_closed _ i pH hi'
  constructor
  · have hcomp := (tendsto_alphaForm_atTop Ka i hi').comp tendsto_Hval_atBot
    exact Tendsto.congr (fun pH => (hfun pH).symm) hcomp
  · have hcomp := (tendsto_alphaForm_nhds_zero Ka hpos i hi').comp tendsto_Hval_atTop
    have hres := Tendsto.congr (fun pH => (hfun pH).symm) hcomp
    rwa [hlen] at hres

theorem C7_limiting_behavior_witness :
    Tendsto (fun pH => (mkAcid [(0 : ℝ)] 1 "A" 0).alpha 0 pH) atBot
        (nhds (if 0 = 0 then 1 else 0))
      ∧ Tendsto (fun pH => (mkAcid [(0 : ℝ)] 1 "A" 0).alpha 0 pH) atTop
        (nhds (if 0 = ([(0 : ℝ)]).length then 1 else 0)) :=
  C7_limiting_behavior [(0 : ℝ)] 1 "A" 0 0 (by simp) (by simp)
